import Mathlib

/-!
The package safelist: a guarded container of string values and grouped string values.

Shallow embedding of `safelist.go`.

* A Go `map[string]struct{}` is a finite set of keys: `Finset String`.
* A Go `map[string]map[string]struct{}` is a finite map from keys to finite
  sets of keys: `Finmap (fun _ : String => Finset String)`.  Two such maps are
  equal exactly when they have the same keys and the same members per key.
* Every public method runs between `Lock`/`RLock` and the deferred unlock, so a
  call is one step from the state before to the state after.  A public method is
  a function from the state before (and its arguments) to its results and the
  state after.  The unexported helpers (`set`, `get`, `getList`, ...) run with
  the lock already held and are plain functions of the state.
* `for k := range aMap` visits every key of the map exactly once, in an order
  the language leaves open and that may differ from one loop to the next.  The
  order is an explicit argument, `RangeOrder`, of every function that loops over
  a map; theorems hold for every such order.
-/

/-- An iteration order for `range` over a Go map with string keys: each key of
the map is visited exactly once. -/
structure RangeOrder where
  /-- The keys in the order the loop visits them. -/
  order : Finset String → List String
  /-- No key is visited twice. -/
  nodup : ∀ s, (order s).Nodup
  /-- Exactly the keys of the map are visited. -/
  mem : ∀ s x, x ∈ order s ↔ x ∈ s

/-- Comparison of two keys, character by character. -/
def keyLe (a b : String) : Prop := a.data ≤ b.data

instance keyLe_decidable : DecidableRel keyLe :=
  fun a b => inferInstanceAs (Decidable (a.data ≤ b.data))

/-- The keys of a map in increasing order: one concrete iteration order. -/
def sortedKeys (s : Finset String) : List String :=
  Quot.liftOn s.val (fun l => l.insertionSort keyLe) (fun l₁ l₂ h => by
    haveI : IsTotal String keyLe := ⟨fun a b => le_total a.data b.data⟩
    haveI : IsTrans String keyLe :=
      ⟨fun a b c h₁ h₂ => @le_trans (List Char) _ a.data b.data c.data h₁ h₂⟩
    haveI : IsAntisymm String keyLe :=
      ⟨fun a b h₁ h₂ => by
        cases a; cases b
        exact congrArg String.mk (@le_antisymm (List Char) _ _ _ h₁ h₂)⟩
    exact List.eq_of_perm_of_sorted
      ((List.perm_insertionSort keyLe l₁).trans
        (h.trans (List.perm_insertionSort keyLe l₂).symm))
      (List.sorted_insertionSort keyLe l₁) (List.sorted_insertionSort keyLe l₂))

/-- The iteration order that visits the keys in increasing order. -/
def sortedOrder : RangeOrder where
  order := sortedKeys
  nodup := fun s => by
    rcases s with ⟨⟨l⟩, hl⟩
    exact (List.perm_insertionSort keyLe l).nodup_iff.mpr hl
  mem := fun s x => by
    rcases s with ⟨⟨l⟩, hl⟩
    exact (List.perm_insertionSort keyLe l).mem_iff

/-- The container `SafeList` of `safelist.go`: `s` holds the single values,
`m` the grouped values.  The embedded `sync.RWMutex` is free before and after
every call and is not part of the state. -/
structure SafeList where
  /-- Field `s map[string]struct{}`. -/
  s : Finset String
  /-- Field `m map[string]map[string]struct{}`. -/
  m : Finmap (fun _ : String => Finset String)
deriving DecidableEq

/-- `New`: both maps are made empty. -/
def SafeList.New : SafeList :=
  { s := ∅, m := ∅ }

/-- `set`: `sm.s[s] = struct{}{}`. -/
def SafeList.set (sm : SafeList) (s : String) : SafeList :=
  { sm with s := insert s sm.s }

/-- `Set`: `set` under the write lock. -/
def SafeList.Set (sm : SafeList) (s : String) : SafeList :=
  sm.set s

/-- `setList`: when `sm.m[s]` is missing it is set to an empty map; then
`sm.m[s][v] = struct{}{}` writes `v` into the map stored under `s`. -/
def SafeList.setList (sm : SafeList) (s v : String) : SafeList :=
  let sm1 : SafeList :=
    match sm.m.lookup s with
    | none => { sm with m := sm.m.insert s ∅ }
    | some _ => sm
  match sm1.m.lookup s with
  | some vs => { sm1 with m := sm1.m.insert s (insert v vs) }
  | none => sm1

/-- `SetList`: `setList` under the write lock. -/
def SafeList.SetList (sm : SafeList) (s v : String) : SafeList :=
  sm.setList s v

/-- `SetMultiple`: one `set` per element of the slice, in order, under one
write lock. -/
def SafeList.SetMultiple (sm : SafeList) (slist : List String) : SafeList :=
  slist.foldl (fun st s => st.set s) sm

/-- `get`: `_, ok := sm.s[s]; return ok`. -/
def SafeList.get (sm : SafeList) (s : String) : Bool :=
  decide (s ∈ sm.s)

/-- `Get`: `get` under the read lock. -/
def SafeList.Get (sm : SafeList) (s : String) : Bool × SafeList :=
  (sm.get s, sm)

/-- `getList`: when `sm.m[s]` is present, its keys are appended one by one to
an empty slice in iteration order; otherwise the empty slice. -/
def SafeList.getList (sm : SafeList) (ρ : RangeOrder) (s : String) : List String :=
  match sm.m.lookup s with
  | some vs => (ρ.order vs).foldl (fun v k => v ++ [k]) []
  | none => []

/-- `GetList`: `getList` under the read lock. -/
def SafeList.GetList (sm : SafeList) (ρ : RangeOrder) (s : String) : List String × SafeList :=
  (sm.getList ρ s, sm)

/-- `GetOrSet`: returns `true` when `get` finds the value, otherwise `set`s it
and returns `false`. -/
def SafeList.GetOrSet (sm : SafeList) (s : String) : Bool × SafeList :=
  if sm.get s then (true, sm) else (false, sm.set s)

/-- `GetOrSetList`: a missing `sm.m[s]` or a missing `sm.m[s][v]` leads to
`setList` and `false`; otherwise `true`. -/
def SafeList.GetOrSetList (sm : SafeList) (s v : String) : Bool × SafeList :=
  match sm.m.lookup s with
  | none => (false, sm.setList s v)
  | some vs => if v ∉ vs then (false, sm.setList s v) else (true, sm)

/-- `GetAndSetList`: as `GetOrSetList`, and returns `[]string{v}` when the
group was missing and `getList(s)` of the state after otherwise. -/
def SafeList.GetAndSetList (sm : SafeList) (ρ : RangeOrder) (s v : String) :
    (List String × Bool) × SafeList :=
  match sm.m.lookup s with
  | none => (([v], false), sm.setList s v)
  | some vs =>
    if v ∉ vs then (((sm.setList s v).getList ρ s, false), sm.setList s v)
    else ((sm.getList ρ s, true), sm)

/-- `len`: `len(sm.m)` when it is not zero, otherwise `len(sm.s)`. -/
def SafeList.len (sm : SafeList) : Nat :=
  if sm.m.keys.card ≠ 0 then sm.m.keys.card else sm.s.card

/-- `Len`: `len` under the read lock. -/
def SafeList.Len (sm : SafeList) : Nat × SafeList :=
  (sm.len, sm)

/-- `del`: `delete(sm.s, s)`. -/
def SafeList.del (sm : SafeList) (s : String) : SafeList :=
  { sm with s := sm.s.erase s }

/-- `Delete`: `del` under the write lock. -/
def SafeList.Delete (sm : SafeList) (s : String) : SafeList :=
  sm.del s

/-- `GetValues`: every key of `sm.s` is appended to the (nil) result slice in
iteration order, under the write lock. -/
def SafeList.GetValues (sm : SafeList) (ρ : RangeOrder) : List String × SafeList :=
  ((ρ.order sm.s).foldl (fun vals id => vals ++ [id]) [], sm)

/-- `delList`: `delete(sm.m, s)`. -/
def SafeList.delList (sm : SafeList) (s : String) : SafeList :=
  { sm with m := sm.m.erase s }

/-- `DeleteList`: `delList` under the write lock. -/
def SafeList.DeleteList (sm : SafeList) (s : String) : SafeList :=
  sm.delList s

/-- `deleteListValue`: when `sm.m[s]` is present, `delete(sm.m[s], v)` removes
`v` from the map stored under `s`; otherwise nothing is done. -/
def SafeList.deleteListValue (sm : SafeList) (s v : String) : SafeList :=
  match sm.m.lookup s with
  | some vs => { sm with m := sm.m.insert s (vs.erase v) }
  | none => sm

/-- `DeleteListValue`: `deleteListValue` under the write lock. -/
def SafeList.DeleteListValue (sm : SafeList) (s v : String) : SafeList :=
  sm.deleteListValue s v

/-- `GetListValues`: starting from an empty result map, for every key `s` of
`sm.m` in iteration order, `vals[s]` is set to the empty slice when it is
missing, and then every member of the group is appended to `vals[s]` in the
iteration order of that group, `ρs s`. -/
def SafeList.GetListValues (sm : SafeList) (ρ : RangeOrder) (ρs : String → RangeOrder) :
    Finmap (fun _ : String => List String) × SafeList :=
  ((ρ.order sm.m.keys).foldl (fun vals s =>
      match sm.m.lookup s with
      | some vs =>
        let vals1 := match vals.lookup s with
          | none => vals.insert s []
          | some _ => vals
        ((ρs s).order vs).foldl
          (fun vals2 v => vals2.insert s ((vals2.lookup s).getD [] ++ [v])) vals1
      | none => vals) ∅, sm)

/-- The text `fmt` prints for a `[]string` operand under the verbs `%v` and
`%s`: the elements separated by one blank, between square brackets. -/
def fmtStrings (v : List String) : String :=
  "[" ++ " ".intercalate v ++ "]"

/-- `fmt.Sprintln(vals)` for one `[]string` operand: the operand as `%v`
prints it, followed by a newline. -/
def fmtSprintln (vals : List String) : String :=
  fmtStrings vals ++ "\n"

/-- `fmt.Sprintf("%s: %s\n", s, v)` for a string `s` and a `[]string` `v`. -/
def fmtSprintfLine (s : String) (v : List String) : String :=
  s ++ ": " ++ fmtStrings v ++ "\n"

/-- `String`: when `len(sm.s) > 0`, `fmt.Sprintln(sm.GetValues())`; otherwise,
when `len(sm.m) > 0`, the lines `fmt.Sprintf("%s: %s\n", s, v)` appended to the
empty string for every entry `s, v` of `sm.GetListValues()` in iteration
order `ρr`; otherwise the empty string.  `ρv` is the order of the loop in
`GetValues`, `ρk` and `ρs` the orders of the loops in `GetListValues`. -/
protected def SafeList.String (sm : SafeList) (ρv ρk : RangeOrder) (ρs : String → RangeOrder)
    (ρr : RangeOrder) : String × SafeList :=
  if sm.s.card > 0 then
    (fmtSprintln (sm.GetValues ρv).1, (sm.GetValues ρv).2)
  else if sm.m.keys.card > 0 then
    ((ρr.order (sm.GetListValues ρk ρs).1.keys).foldl
      (fun str s => str ++ fmtSprintfLine s (((sm.GetListValues ρk ρs).1.lookup s).getD [])) "",
     (sm.GetListValues ρk ρs).2)
  else ("", sm)

/-- The rendering of the grouped collection alone: one line
`key: members` per group, each ended by a newline, for the groups in the
order `ρr` and the members of each group `k` in the order `ρs k`. -/
def SafeList.describeGroups (sm : SafeList) (ρs : String → RangeOrder) (ρr : RangeOrder) :
    String :=
  ((ρr.order sm.m.keys).map (fun k => fmtSprintfLine k (sm.getList (ρs k) k))).foldl
    (fun str line => str ++ line) ""

/-- One call of a public method that may change the container. -/
inductive Op where
  | Set (v : String)
  | SetMultiple (vs : List String)
  | GetOrSet (v : String)
  | Delete (v : String)
  | SetList (k v : String)
  | GetOrSetList (k v : String)
  | GetAndSetList (ρ : RangeOrder) (k v : String)
  | DeleteListValue (k v : String)
  | DeleteList (k : String)

/-- The state after one call. -/
def Op.apply (sm : SafeList) : Op → SafeList
  | Op.Set v => sm.Set v
  | Op.SetMultiple vs => sm.SetMultiple vs
  | Op.GetOrSet v => (sm.GetOrSet v).2
  | Op.Delete v => sm.Delete v
  | Op.SetList k v => sm.SetList k v
  | Op.GetOrSetList k v => (sm.GetOrSetList k v).2
  | Op.GetAndSetList ρ k v => (sm.GetAndSetList ρ k v).2
  | Op.DeleteListValue k v => sm.DeleteListValue k v
  | Op.DeleteList k => sm.DeleteList k

/-- The state after a sequence of calls, one after the other. -/
def SafeList.run (sm : SafeList) (ops : List Op) : SafeList :=
  ops.foldl Op.apply sm

/-! Facts about the model shared by the theorems below. -/

/-- Appending the visited keys one by one to a slice yields the slice followed
by the keys in the order visited. -/
theorem foldl_append_keys (l acc : List String) :
    l.foldl (fun v k => v ++ [k]) acc = acc ++ l := by
  induction l generalizing acc with
  | nil => simp
  | cons a t ih => simp [List.foldl_cons, ih]

/-- A loop over a map visits as many keys as the map holds. -/
theorem RangeOrder.length_order (ρ : RangeOrder) (s : Finset String) :
    (ρ.order s).length = s.card := by
  have h : (ρ.order s).toFinset = s := by
    ext x
    simp [ρ.mem s x]
  rw [← List.toFinset_card_of_nodup (ρ.nodup s), h]

/-- Two loops over the same map visit the same keys, each once. -/
theorem RangeOrder.perm_order (ρ ρ' : RangeOrder) (s : Finset String) :
    (ρ.order s).Perm (ρ'.order s) := by
  rw [List.perm_ext_iff_of_nodup (ρ.nodup s) (ρ'.nodup s)]
  intro x
  rw [ρ.mem, ρ'.mem]

theorem SafeList.getList_some (sm : SafeList) (ρ : RangeOrder) (k : String)
    (vs : Finset String) (h : sm.m.lookup k = some vs) : sm.getList ρ k = ρ.order vs := by
  simp [SafeList.getList, h, foldl_append_keys]

theorem SafeList.getList_none (sm : SafeList) (ρ : RangeOrder) (k : String)
    (h : sm.m.lookup k = none) : sm.getList ρ k = [] := by
  simp [SafeList.getList, h]

theorem SafeList.GetValues_fst (sm : SafeList) (ρ : RangeOrder) :
    (sm.GetValues ρ).1 = ρ.order sm.s := by
  simp [SafeList.GetValues, foldl_append_keys]

/-- The grouped map after `setList`: key `s` holds its former members (none
when it was missing) and `v`. -/
theorem SafeList.setList_m (sm : SafeList) (s v : String) :
    (sm.setList s v).m = sm.m.insert s (insert v ((sm.m.lookup s).getD ∅)) := by
  unfold SafeList.setList
  cases h : sm.m.lookup s with
  | none => simp [Finmap.lookup_insert, Finmap.insert_insert]
  | some vs => simp [h]

theorem SafeList.setList_s (sm : SafeList) (s v : String) : (sm.setList s v).s = sm.s := by
  unfold SafeList.setList
  cases h : sm.m.lookup s with
  | none => simp [Finmap.lookup_insert]
  | some vs => simp [h]

theorem SafeList.setList_lookup_self (sm : SafeList) (s v : String) :
    (sm.setList s v).m.lookup s = some (insert v ((sm.m.lookup s).getD ∅)) := by
  rw [SafeList.setList_m, Finmap.lookup_insert]

theorem SafeList.setList_lookup_ne (sm : SafeList) (s v k : String) (h : k ≠ s) :
    (sm.setList s v).m.lookup k = sm.m.lookup k := by
  rw [SafeList.setList_m, Finmap.lookup_insert_of_ne _ h]

theorem SafeList.ext_iff_fields (a b : SafeList) : a = b ↔ a.s = b.s ∧ a.m = b.m := by
  cases a; cases b; simp

/-- Writing a value that group `s` already holds leaves the container as it was. -/
theorem SafeList.setList_of_mem (sm : SafeList) (s v : String) (vs : Finset String)
    (h : sm.m.lookup s = some vs) (hv : v ∈ vs) : sm.setList s v = sm := by
  rw [SafeList.ext_iff_fields]
  refine ⟨SafeList.setList_s sm s v, ?_⟩
  apply Finmap.ext_lookup
  intro k
  by_cases hk : k = s
  · subst hk
    rw [SafeList.setList_lookup_self, h]
    simp [Finset.insert_eq_of_mem hv]
  · rw [SafeList.setList_lookup_ne sm s v k hk]

/-! The claims. -/

/-- C1: `GetOrSet(v)` returns true exactly when `v` was in the flat set before
the call (as `Get(v)` reports it); when it returns true the state is unchanged;
when it returns false the state after is the one `Set(v)` produces, in which
`v` is present, every other flat value is as before and the groups are as
before. -/
theorem C1_GetOrSet_spec (sm : SafeList) (v : String) :
    ((sm.GetOrSet v).1 = true ↔ v ∈ sm.s) ∧
    ((sm.GetOrSet v).1 = (sm.Get v).1) ∧
    ((sm.GetOrSet v).1 = true → (sm.GetOrSet v).2 = sm) ∧
    ((sm.GetOrSet v).1 = false →
      (sm.GetOrSet v).2 = sm.Set v ∧
      ((sm.GetOrSet v).2.Get v).1 = true ∧
      (∀ w, w ≠ v → (((sm.GetOrSet v).2.Get w).1 = (sm.Get w).1)) ∧
      (sm.GetOrSet v).2.m = sm.m) := by
  by_cases h : v ∈ sm.s
  · simp [SafeList.GetOrSet, SafeList.get, SafeList.Get, h]
  · simp [SafeList.GetOrSet, SafeList.get, SafeList.Get, SafeList.Set, SafeList.set, h]
    intro w hw
    simp [Finset.mem_insert, hw]

/-- C2: `GetOrSetList(k, v)` by cases.  Group `k` missing: the call returns
false and afterwards group `k` exists with `v` as its member.  Group `k`
present without `v`: the call returns false and afterwards group `k` holds its
former members and `v`.  In both cases every other group and the flat set are
as before.  Group `k` present with `v`: the call returns true and the state is
unchanged. -/
theorem C2_GetOrSetList_cases (sm : SafeList) (k v : String) :
    (sm.m.lookup k = none →
      (sm.GetOrSetList k v).1 = false ∧
      (sm.GetOrSetList k v).2.m.lookup k = some {v} ∧
      (∀ k', k' ≠ k → (sm.GetOrSetList k v).2.m.lookup k' = sm.m.lookup k') ∧
      (sm.GetOrSetList k v).2.s = sm.s) ∧
    (∀ vs, sm.m.lookup k = some vs → v ∉ vs →
      (sm.GetOrSetList k v).1 = false ∧
      (sm.GetOrSetList k v).2.m.lookup k = some (insert v vs) ∧
      (∀ k', k' ≠ k → (sm.GetOrSetList k v).2.m.lookup k' = sm.m.lookup k') ∧
      (sm.GetOrSetList k v).2.s = sm.s) ∧
    (∀ vs, sm.m.lookup k = some vs → v ∈ vs →
      (sm.GetOrSetList k v).1 = true ∧ (sm.GetOrSetList k v).2 = sm) := by
  refine ⟨?_, ?_, ?_⟩
  · intro h
    refine ⟨by simp [SafeList.GetOrSetList, h], ?_, ?_, ?_⟩
    · simp [SafeList.GetOrSetList, h, SafeList.setList_lookup_self]
    · intro k' hk'
      simp [SafeList.GetOrSetList, h, SafeList.setList_lookup_ne _ _ _ _ hk']
    · simp [SafeList.GetOrSetList, h, SafeList.setList_s]
  · intro vs h hv
    refine ⟨by simp [SafeList.GetOrSetList, h, hv], ?_, ?_, ?_⟩
    · simp [SafeList.GetOrSetList, h, hv, SafeList.setList_lookup_self]
    · intro k' hk'
      simp [SafeList.GetOrSetList, h, hv, SafeList.setList_lookup_ne _ _ _ _ hk']
    · simp [SafeList.GetOrSetList, h, hv, SafeList.setList_s]
  · intro vs h hv
    simp [SafeList.GetOrSetList, h, hv]

/-- The results of `GetAndSetList`: the flag and state of `GetOrSetList`, and a
duplicate-free list of exactly the members group `s` has afterwards, `v` among
them. -/
theorem SafeList.GetAndSetList_shape (sm : SafeList) (ρ : RangeOrder) (s v : String) :
    (sm.GetAndSetList ρ s v).1.2 = (sm.GetOrSetList s v).1 ∧
    (sm.GetAndSetList ρ s v).2 = (sm.GetOrSetList s v).2 ∧
    ∃ vs, (sm.GetAndSetList ρ s v).2.m.lookup s = some vs ∧ v ∈ vs ∧
      (sm.GetAndSetList ρ s v).1.1.Nodup ∧
      ∀ x, x ∈ (sm.GetAndSetList ρ s v).1.1 ↔ x ∈ vs := by
  cases h : sm.m.lookup s with
  | none =>
    refine ⟨by simp [SafeList.GetAndSetList, SafeList.GetOrSetList, h],
      by simp [SafeList.GetAndSetList, SafeList.GetOrSetList, h], {v}, ?_⟩
    simp [SafeList.GetAndSetList, h, SafeList.setList_lookup_self]
  | some ws =>
    by_cases hv : v ∈ ws
    · refine ⟨by simp [SafeList.GetAndSetList, SafeList.GetOrSetList, h, hv],
        by simp [SafeList.GetAndSetList, SafeList.GetOrSetList, h, hv], ws, ?_⟩
      simp [SafeList.GetAndSetList, h, hv, SafeList.getList_some sm ρ s ws h, ρ.nodup, ρ.mem]
    · refine ⟨by simp [SafeList.GetAndSetList, SafeList.GetOrSetList, h, hv],
        by simp [SafeList.GetAndSetList, SafeList.GetOrSetList, h, hv], insert v ws, ?_⟩
      have hl : (sm.setList s v).m.lookup s = some (insert v ws) := by
        simp [SafeList.setList_lookup_self, h]
      simp only [SafeList.GetAndSetList, h, hv, not_false_eq_true, if_true,
        SafeList.getList_some _ ρ s _ hl]
      exact ⟨hl, Finset.mem_insert_self v ws, ρ.nodup _, fun x => ρ.mem _ x⟩

/-- The results of `GetAndSetList` when group `s` already holds `v`: the
members of the group in iteration order, `true`, and the state as it was. -/
theorem SafeList.GetAndSetList_of_mem (sm : SafeList) (ρ : RangeOrder) (s v : String)
    (vs : Finset String) (h : sm.m.lookup s = some vs) (hv : v ∈ vs) :
    sm.GetAndSetList ρ s v = ((ρ.order vs, true), sm) := by
  simp [SafeList.GetAndSetList, h, hv, SafeList.getList_some sm ρ s vs h]

/-- C3: `GetAndSetList(k, v)` returns the boolean `GetOrSetList(k, v)` returns
and leaves the state `GetOrSetList(k, v)` leaves; the list it returns is a
rearrangement of what `GetList(k)` returns afterwards, holds exactly the
members group `k` then has, and contains `v`; a second call with the same
arguments returns a rearrangement of the same list together with true, and
leaves the state unchanged.  This holds for every iteration order of each of
the loops involved. -/
theorem C3_GetAndSetList_spec (sm : SafeList) (ρ ρ₁ ρ₂ : RangeOrder) (k v : String) :
    (sm.GetAndSetList ρ k v).1.2 = (sm.GetOrSetList k v).1 ∧
    (sm.GetAndSetList ρ k v).2 = (sm.GetOrSetList k v).2 ∧
    (sm.GetAndSetList ρ k v).1.1.Perm (((sm.GetAndSetList ρ k v).2.GetList ρ₁ k).1) ∧
    (∀ x, x ∈ (sm.GetAndSetList ρ k v).1.1 ↔
      ∃ vs, (sm.GetAndSetList ρ k v).2.m.lookup k = some vs ∧ x ∈ vs) ∧
    v ∈ (sm.GetAndSetList ρ k v).1.1 ∧
    ((sm.GetAndSetList ρ k v).2.GetAndSetList ρ₂ k v).1.2 = true ∧
    ((sm.GetAndSetList ρ k v).2.GetAndSetList ρ₂ k v).2 = (sm.GetAndSetList ρ k v).2 ∧
    (((sm.GetAndSetList ρ k v).2.GetAndSetList ρ₂ k v).1.1).Perm
      (sm.GetAndSetList ρ k v).1.1 := by
  obtain ⟨hb, hst, vs, hl, hv, hnd, hmem⟩ := SafeList.GetAndSetList_shape sm ρ k v
  have hperm : ∀ ρ' : RangeOrder, (sm.GetAndSetList ρ k v).1.1.Perm (ρ'.order vs) := by
    intro ρ'
    rw [List.perm_ext_iff_of_nodup hnd (ρ'.nodup vs)]
    intro x
    rw [hmem x, ρ'.mem]
  refine ⟨hb, hst, ?_, ?_, ?_, ?_, ?_, ?_⟩
  · simpa [SafeList.GetList, SafeList.getList_some _ ρ₁ k vs hl] using hperm ρ₁
  · intro x
    rw [hmem x, hl]
    simp
  · exact (hmem v).2 hv
  · rw [SafeList.GetAndSetList_of_mem _ ρ₂ k v vs hl hv]
  · rw [SafeList.GetAndSetList_of_mem _ ρ₂ k v vs hl hv]
  · rw [SafeList.GetAndSetList_of_mem _ ρ₂ k v vs hl hv]
    exact (hperm ρ₂).symm

/-- C4: `Set` is idempotent.  After `Set(v)` and a second `Set(v)`, `Get(v)` is
true, the state is the state after the first `Set(v)`, and `GetValues()` is as
long as after the first `Set(v)`; `Set(v)` on a state that holds `v` changes
nothing. -/
theorem C4_Set_idempotent (sm : SafeList) (ρ ρ₁ : RangeOrder) (v : String) :
    (((sm.Set v).Set v).Get v).1 = true ∧
    (sm.Set v).Set v = sm.Set v ∧
    (((sm.Set v).Set v).GetValues ρ).1.length = ((sm.Set v).GetValues ρ₁).1.length ∧
    ((sm.Get v).1 = true → sm.Set v = sm) := by
  have h2 : (sm.Set v).Set v = sm.Set v := by
    simp [SafeList.Set, SafeList.set]
  refine ⟨by simp [SafeList.Get, SafeList.get, SafeList.Set, SafeList.set], h2, ?_, ?_⟩
  · rw [h2, SafeList.GetValues_fst, SafeList.GetValues_fst, ρ.length_order, ρ₁.length_order]
  · intro h
    have hv : v ∈ sm.s := by simpa [SafeList.Get, SafeList.get] using h
    simp [SafeList.Set, SafeList.set, Finset.insert_eq_of_mem hv]

/-- C5: when `v` is not yet in the flat set, the first `GetOrSet(v)` returns
false, a second `GetOrSet(v)` on the resulting state returns true, and the
second call leaves the state produced by the first unchanged. -/
theorem C5_GetOrSet_twice (sm : SafeList) (v : String) (h : (sm.Get v).1 = false) :
    (sm.GetOrSet v).1 = false ∧
    ((sm.GetOrSet v).2.GetOrSet v).1 = true ∧
    ((sm.GetOrSet v).2.GetOrSet v).2 = (sm.GetOrSet v).2 := by
  have hv : v ∉ sm.s := by simpa [SafeList.Get, SafeList.get] using h
  simp [SafeList.GetOrSet, SafeList.get, SafeList.set, hv]

/-- C5 at a concrete input: a new container and the value "grape". -/
theorem C5_GetOrSet_twice_witness :
    (SafeList.New.Get "grape").1 = false ∧
    (SafeList.New.GetOrSet "grape").1 = false ∧
    ((SafeList.New.GetOrSet "grape").2.GetOrSet "grape").1 = true ∧
    ((SafeList.New.GetOrSet "grape").2.GetOrSet "grape").2 = (SafeList.New.GetOrSet "grape").2 :=
  ⟨by decide, C5_GetOrSet_twice SafeList.New "grape" (by decide)⟩

/-- The state after `SetMultiple`: the flat set gains the elements of the
slice, the groups are untouched. -/
theorem SafeList.SetMultiple_fields (sm : SafeList) (slist : List String) :
    (sm.SetMultiple slist).s = sm.s ∪ slist.toFinset ∧ (sm.SetMultiple slist).m = sm.m := by
  unfold SafeList.SetMultiple
  induction slist generalizing sm with
  | nil => simp
  | cons a t ih =>
    rw [List.foldl_cons]
    obtain ⟨h₁, h₂⟩ := ih (sm.set a)
    refine ⟨?_, ?_⟩
    · rw [h₁]
      ext x
      simp [SafeList.set, Finset.mem_union, Finset.mem_insert]
    · rw [h₂]
      rfl

/-- C6: `SetMultiple(vs)` yields the state that `Set` on each element of `vs`
in order yields; afterwards `Get(x)` is true exactly for the `x` that were
present before or occur in `vs`, `GetValues()` lists no value twice, and the
grouped set is unchanged.  The list may be empty and may repeat elements. -/
theorem C6_SetMultiple_spec (sm : SafeList) (ρ : RangeOrder) (vs : List String) :
    sm.SetMultiple vs = vs.foldl (fun st v => st.Set v) sm ∧
    (∀ x, ((sm.SetMultiple vs).Get x).1 = true ↔ ((sm.Get x).1 = true ∨ x ∈ vs)) ∧
    ((sm.SetMultiple vs).GetValues ρ).1.Nodup ∧
    (∀ x, ((sm.SetMultiple vs).GetValues ρ).1.count x ≤ 1) ∧
    (sm.SetMultiple vs).m = sm.m := by
  obtain ⟨hs, hm⟩ := SafeList.SetMultiple_fields sm vs
  have hnd : ((sm.SetMultiple vs).GetValues ρ).1.Nodup := by
    rw [SafeList.GetValues_fst]
    exact ρ.nodup _
  refine ⟨rfl, ?_, hnd, ?_, hm⟩
  · intro x
    simp [SafeList.Get, SafeList.get, hs, Finset.mem_union]
  · intro x
    exact List.nodup_iff_count_le_one.mp hnd x

/-- C7: after `Delete(v)`, `Get(v)` is false and `Get(w)` is as before for
every other `w`; the groups are as before; when `v` was not in the flat set
the whole state is unchanged. -/
theorem C7_Delete_spec (sm : SafeList) (v : String) :
    ((sm.Delete v).Get v).1 = false ∧
    (∀ w, w ≠ v → ((sm.Delete v).Get w).1 = (sm.Get w).1) ∧
    (sm.Delete v).m = sm.m ∧
    ((sm.Get v).1 = false → sm.Delete v = sm) := by
  refine ⟨by simp [SafeList.Delete, SafeList.del, SafeList.Get, SafeList.get], ?_, rfl, ?_⟩
  · intro w hw
    simp [SafeList.Delete, SafeList.del, SafeList.Get, SafeList.get, Finset.mem_erase, hw]
  · intro h
    have hv : v ∉ sm.s := by simpa [SafeList.Get, SafeList.get] using h
    simp [SafeList.Delete, SafeList.del, Finset.erase_eq_of_not_mem hv]

/-- C8: `GetValues()` returns a list in which a string occurs exactly when
`Get` reports it present, no string occurs twice, and the state after the
call is the state before. -/
theorem C8_GetValues_spec (sm : SafeList) (ρ : RangeOrder) :
    (∀ x, x ∈ (sm.GetValues ρ).1 ↔ (sm.Get x).1 = true) ∧
    (sm.GetValues ρ).1.Nodup ∧
    (∀ x, (sm.GetValues ρ).1.count x ≤ 1) ∧
    (sm.GetValues ρ).2 = sm := by
  have hnd : (sm.GetValues ρ).1.Nodup := by
    rw [SafeList.GetValues_fst]
    exact ρ.nodup _
  refine ⟨?_, hnd, fun x => List.nodup_iff_count_le_one.mp hnd x, rfl⟩
  intro x
  rw [SafeList.GetValues_fst, ρ.mem]
  simp [SafeList.Get, SafeList.get]

/-- C9: `Len()` is the number of group keys when at least one group exists,
and otherwise the number of values in the flat set, which is also the length
of `GetValues()`; it is 0 for a container from `New()`; the state is
unchanged. -/
theorem C9_Len_spec (sm : SafeList) (ρ : RangeOrder) :
    ((∃ k vs, sm.m.lookup k = some vs) → sm.Len.1 = sm.m.keys.card) ∧
    ((¬ ∃ k vs, sm.m.lookup k = some vs) →
      sm.Len.1 = sm.s.card ∧ sm.Len.1 = (sm.GetValues ρ).1.length) ∧
    SafeList.New.Len.1 = 0 ∧
    sm.Len.2 = sm := by
  refine ⟨?_, ?_, by decide, rfl⟩
  · rintro ⟨k, vs, h⟩
    have hk : k ∈ sm.m.keys := by
      rw [Finmap.mem_keys, ← Finmap.lookup_isSome, h]
      rfl
    have hc : sm.m.keys.card ≠ 0 := Finset.card_ne_zero_of_mem hk
    simp [SafeList.Len, SafeList.len, hc]
  · intro h
    have hc : sm.m.keys.card = 0 := by
      rw [Finset.card_eq_zero, Finset.eq_empty_iff_forall_not_mem]
      intro k hk
      rw [Finmap.mem_keys, ← Finmap.lookup_isSome, Option.isSome_iff_exists] at hk
      obtain ⟨vs, hvs⟩ := hk
      exact h ⟨k, vs, hvs⟩
    have hl : sm.Len.1 = sm.s.card := by simp [SafeList.Len, SafeList.len, hc]
    exact ⟨hl, by rw [hl, SafeList.GetValues_fst, ρ.length_order]⟩

/-- C10: after `SetList(k, v)` group `k` exists and holds exactly its previous
members (none when it did not exist) and `v`, also as `GetList(k)` lists them;
every other group is as before, also as `GetList` lists it; the flat set is as
before; and a second `SetList(k, v)` changes nothing. -/
theorem C10_SetList_spec (sm : SafeList) (ρ ρ₁ : RangeOrder) (k v : String) :
    (sm.SetList k v).m.lookup k = some (insert v ((sm.m.lookup k).getD ∅)) ∧
    (∀ x, x ∈ ((sm.SetList k v).GetList ρ k).1 ↔ (x = v ∨ x ∈ (sm.GetList ρ₁ k).1)) ∧
    ((sm.SetList k v).GetList ρ k).1.Nodup ∧
    (∀ k', k' ≠ k → (sm.SetList k v).m.lookup k' = sm.m.lookup k') ∧
    (∀ k', k' ≠ k → ((sm.SetList k v).GetList ρ k').1 = (sm.GetList ρ k').1) ∧
    (sm.SetList k v).s = sm.s ∧
    (sm.SetList k v).SetList k v = sm.SetList k v := by
  have hl := SafeList.setList_lookup_self sm k v
  refine ⟨hl, ?_, ?_, ?_, ?_, SafeList.setList_s sm k v, ?_⟩
  · intro x
    simp only [SafeList.GetList, SafeList.SetList, SafeList.getList_some _ ρ k _ hl, ρ.mem,
      Finset.mem_insert]
    cases h : sm.m.lookup k with
    | none => simp [SafeList.getList_none sm ρ₁ k h]
    | some ws => simp [SafeList.getList_some sm ρ₁ k ws h, ρ₁.mem]
  · simp only [SafeList.GetList, SafeList.SetList, SafeList.getList_some _ ρ k _ hl]
    exact ρ.nodup _
  · intro k' hk'
    exact SafeList.setList_lookup_ne sm k v k' hk'
  · intro k' hk'
    simp [SafeList.GetList, SafeList.SetList, SafeList.getList,
      SafeList.setList_lookup_ne sm k v k' hk']
  · exact SafeList.setList_of_mem _ k v _ hl (Finset.mem_insert_self _ _)

/-- A loop over a map with the single key `a` visits `a` and nothing else. -/
theorem RangeOrder.order_singleton (ρ : RangeOrder) (a : String) : ρ.order {a} = [a] := by
  have hp : (ρ.order {a}).Perm [a] := by
    rw [List.perm_ext_iff_of_nodup (ρ.nodup _) (List.nodup_singleton a)]
    intro x
    simp [ρ.mem]
  exact List.perm_singleton.mp hp

/-- A loop over an empty map visits nothing. -/
theorem RangeOrder.order_empty (ρ : RangeOrder) : ρ.order ∅ = [] := by
  apply List.eq_nil_iff_forall_not_mem.mpr
  intro x hx
  simpa using (ρ.mem ∅ x).mp hx

theorem SafeList.deleteListValue_s (sm : SafeList) (s v : String) :
    (sm.deleteListValue s v).s = sm.s := by
  unfold SafeList.deleteListValue
  cases h : sm.m.lookup s <;> simp

theorem SafeList.deleteListValue_lookup_self (sm : SafeList) (s v : String) :
    (sm.deleteListValue s v).m.lookup s = (sm.m.lookup s).map (fun vs => vs.erase v) := by
  unfold SafeList.deleteListValue
  cases h : sm.m.lookup s with
  | none => simp [h]
  | some vs => simp [Finmap.lookup_insert]

theorem SafeList.deleteListValue_lookup_ne (sm : SafeList) (s v k : String) (hk : k ≠ s) :
    (sm.deleteListValue s v).m.lookup k = sm.m.lookup k := by
  unfold SafeList.deleteListValue
  cases h : sm.m.lookup s with
  | none => simp
  | some vs => simp [Finmap.lookup_insert_of_ne _ hk]

/-- Removing a value from a group that does not exist leaves the container as
it was. -/
theorem SafeList.deleteListValue_of_none (sm : SafeList) (s v : String)
    (h : sm.m.lookup s = none) : sm.deleteListValue s v = sm := by
  simp [SafeList.deleteListValue, h]

/-- C11: `GetList(k)` returns a duplicate-free list of exactly the members of
group `k` when the group exists (for every iteration order, so any two results
are rearrangements of each other), and the empty list when group `k` does not
exist; the state after the call is the state before, so group `k` is not
created. -/
theorem C11_GetList_spec (sm : SafeList) (ρ ρ₁ : RangeOrder) (k : String) :
    (∀ vs, sm.m.lookup k = some vs →
      (∀ x, x ∈ (sm.GetList ρ k).1 ↔ x ∈ vs) ∧
      (sm.GetList ρ k).1.Nodup ∧
      (sm.GetList ρ k).1.length = vs.card ∧
      (sm.GetList ρ k).1.Perm (sm.GetList ρ₁ k).1) ∧
    (sm.m.lookup k = none → (sm.GetList ρ k).1 = []) ∧
    (sm.GetList ρ k).2 = sm ∧
    (sm.GetList ρ k).2.m.lookup k = sm.m.lookup k := by
  refine ⟨?_, ?_, rfl, rfl⟩
  · intro vs h
    simp only [SafeList.GetList, SafeList.getList_some sm _ k vs h]
    exact ⟨fun x => ρ.mem vs x, ρ.nodup vs, ρ.length_order vs, ρ.perm_order ρ₁ vs⟩
  · intro h
    simp [SafeList.GetList, SafeList.getList_none sm ρ k h]

/-- C12: when group `k` exists, `DeleteListValue(k, v)` leaves in group `k`
exactly its other members (also as `GetList(k)` lists them) and leaves every
other group and the flat set as they were; when group `k` does not exist the
state is unchanged and the group is still missing.  On a new container,
`SetList("fruit","banana")`, `SetList("fruit","apple")`,
`DeleteListValue("fruit","banana")` give `GetList("fruit") = ["apple"]`. -/
theorem C12_DeleteListValue_spec (sm : SafeList) (ρ ρ₁ : RangeOrder) (k v : String) :
    (∀ vs, sm.m.lookup k = some vs →
      (sm.DeleteListValue k v).m.lookup k = some (vs.erase v) ∧
      (∀ x, x ∈ ((sm.DeleteListValue k v).GetList ρ k).1 ↔
        (x ≠ v ∧ x ∈ (sm.GetList ρ₁ k).1))) ∧
    (∀ k', k' ≠ k → (sm.DeleteListValue k v).m.lookup k' = sm.m.lookup k') ∧
    (∀ k', k' ≠ k → ((sm.DeleteListValue k v).GetList ρ k').1 = (sm.GetList ρ k').1) ∧
    (sm.DeleteListValue k v).s = sm.s ∧
    (sm.m.lookup k = none →
      sm.DeleteListValue k v = sm ∧ (sm.DeleteListValue k v).m.lookup k = none) ∧
    ((((SafeList.New.SetList "fruit" "banana").SetList "fruit" "apple").DeleteListValue
      "fruit" "banana").GetList ρ "fruit").1 = ["apple"] := by
  refine ⟨?_, ?_, ?_, SafeList.deleteListValue_s sm k v, ?_, ?_⟩
  · intro vs h
    have hl : (sm.DeleteListValue k v).m.lookup k = some (vs.erase v) := by
      simp [SafeList.DeleteListValue, SafeList.deleteListValue_lookup_self, h]
    refine ⟨hl, ?_⟩
    intro x
    simp [SafeList.GetList, SafeList.getList_some _ ρ k _ hl, SafeList.getList_some sm ρ₁ k vs h,
      ρ.mem, ρ₁.mem, Finset.mem_erase]
  · intro k' hk'
    exact SafeList.deleteListValue_lookup_ne sm k v k' hk'
  · intro k' hk'
    simp [SafeList.GetList, SafeList.DeleteListValue, SafeList.getList,
      SafeList.deleteListValue_lookup_ne sm k v k' hk']
  · intro h
    have he : sm.DeleteListValue k v = sm := SafeList.deleteListValue_of_none sm k v h
    exact ⟨he, by rw [he]; exact h⟩
  · have hl : (((SafeList.New.SetList "fruit" "banana").SetList "fruit" "apple").DeleteListValue
        "fruit" "banana").m.lookup "fruit" = some {"apple"} := by decide
    simp only [SafeList.GetList, SafeList.getList_some _ ρ "fruit" _ hl]
    exact ρ.order_singleton "apple"

/-- The inner loop of `GetListValues`: the members visited are appended to the
slice stored under `s`; the other entries of the result are untouched. -/
theorem GetListValues_inner (s : String) (l : List String)
    (vals : Finmap (fun _ : String => List String)) (acc : List String)
    (h : vals.lookup s = some acc) (k : String) :
    (l.foldl (fun vals2 v => vals2.insert s ((vals2.lookup s).getD [] ++ [v])) vals).lookup k
      = if k = s then some (acc ++ l) else vals.lookup k := by
  induction l generalizing vals acc with
  | nil =>
    by_cases hk : k = s
    · subst hk
      simp [h]
    · simp [hk]
  | cons a t ih =>
    rw [List.foldl_cons]
    rw [ih (vals.insert s ((vals.lookup s).getD [] ++ [a])) (acc ++ [a])
      (by rw [Finmap.lookup_insert, h]; rfl)]
    by_cases hk : k = s
    · simp [hk]
    · simp [hk, Finmap.lookup_insert_of_ne _ hk]

/-- One round of the outer loop of `GetListValues`, for the group key `a`: the
members of group `a` are appended to what the result held for `a`; the other
entries of the result are untouched. -/
theorem GetListValues_step (sm : SafeList) (ρs : String → RangeOrder) (a : String)
    (vals : Finmap (fun _ : String => List String)) (k : String) :
    (match sm.m.lookup a with
      | some vs =>
        let vals1 := match vals.lookup a with
          | none => vals.insert a []
          | some _ => vals
        ((ρs a).order vs).foldl
          (fun (vals2 : Finmap (fun _ : String => List String)) v =>
            vals2.insert a ((vals2.lookup a).getD [] ++ [v])) vals1
      | none => vals).lookup k
    = if k = a then
        (match sm.m.lookup a with
          | some vs => some ((vals.lookup a).getD [] ++ (ρs a).order vs)
          | none => vals.lookup a)
      else vals.lookup k := by
  cases hm : sm.m.lookup a with
  | none =>
    by_cases hk : k = a
    · subst hk
      simp
    · simp [hk]
  | some vs =>
    cases hv : vals.lookup a with
    | none =>
      simp only []
      rw [GetListValues_inner a _ (vals.insert a []) [] (Finmap.lookup_insert _) k]
      by_cases hk : k = a
      · simp [hk]
      · simp [hk, Finmap.lookup_insert_of_ne _ hk]
    | some acc =>
      simp only []
      rw [GetListValues_inner a _ vals acc hv k]
      by_cases hk : k = a
      · simp [hk]
      · simp [hk]

/-- The outer loop of `GetListValues` over a duplicate-free list of group
keys: every key visited gets the members of its group, in the order of its
inner loop, after what the result held for it; the other entries of the result
are untouched. -/
theorem GetListValues_outer (sm : SafeList) (ρs : String → RangeOrder) (L : List String)
    (hnd : L.Nodup) (vals : Finmap (fun _ : String => List String)) (k : String) :
    (L.foldl (fun (vals : Finmap (fun _ : String => List String)) s =>
      match sm.m.lookup s with
      | some vs =>
        let vals1 := match vals.lookup s with
          | none => vals.insert s []
          | some _ => vals
        ((ρs s).order vs).foldl
          (fun (vals2 : Finmap (fun _ : String => List String)) v =>
            vals2.insert s ((vals2.lookup s).getD [] ++ [v])) vals1
      | none => vals) vals).lookup k
      = if k ∈ L then
          (match sm.m.lookup k with
            | some vs => some ((vals.lookup k).getD [] ++ (ρs k).order vs)
            | none => vals.lookup k)
        else vals.lookup k := by
  induction L generalizing vals with
  | nil => simp
  | cons a t ih =>
    rw [List.foldl_cons, ih (List.nodup_cons.mp hnd).2]
    have hat : a ∉ t := (List.nodup_cons.mp hnd).1
    by_cases hkt : k ∈ t
    · have hka : k ≠ a := fun h => hat (h ▸ hkt)
      simp only [hkt, if_true, List.mem_cons, or_true]
      rw [GetListValues_step sm ρs a vals k]
      simp [hka]
    · by_cases hka : k = a
      · subst hka
        simp only [hkt, if_false, List.mem_cons, true_or, if_true]
        rw [GetListValues_step sm ρs k vals k]
        simp
      · simp only [hkt, if_false, List.mem_cons, hka, or_self]
        rw [GetListValues_step sm ρs a vals k]
        simp [hka]

/-- The result of `GetListValues`: under every group key, the members of that
group in the order of its inner loop; no entry for any other key. -/
theorem SafeList.GetListValues_lookup (sm : SafeList) (ρ : RangeOrder)
    (ρs : String → RangeOrder) (k : String) :
    (sm.GetListValues ρ ρs).1.lookup k = (sm.m.lookup k).map (fun vs => (ρs k).order vs) := by
  unfold SafeList.GetListValues
  simp only []
  rw [GetListValues_outer sm ρs _ (ρ.nodup _) ∅ k]
  by_cases hk : k ∈ ρ.order sm.m.keys
  · cases hm : sm.m.lookup k with
    | none => simp [hk]
    | some vs => simp [hk]
  · have hn : sm.m.lookup k = none := by
      rw [ρ.mem, Finmap.mem_keys] at hk
      exact Finmap.lookup_eq_none.mpr hk
    simp [hk, hn]

theorem SafeList.GetListValues_snd (sm : SafeList) (ρ : RangeOrder)
    (ρs : String → RangeOrder) : (sm.GetListValues ρ ρs).2 = sm := rfl

/-- The keys of the result of `GetListValues` are the group keys. -/
theorem SafeList.GetListValues_keys (sm : SafeList) (ρ : RangeOrder)
    (ρs : String → RangeOrder) : (sm.GetListValues ρ ρs).1.keys = sm.m.keys := by
  ext k
  rw [Finmap.mem_keys, Finmap.mem_keys, ← Finmap.lookup_isSome, ← Finmap.lookup_isSome,
    SafeList.GetListValues_lookup]
  cases sm.m.lookup k <;> simp

/-- What `GetListValues` holds for a key, read with the empty slice for a
missing entry, is what `getList` returns for that key under the same order. -/
theorem SafeList.GetListValues_getD (sm : SafeList) (ρ : RangeOrder)
    (ρs : String → RangeOrder) (k : String) :
    ((sm.GetListValues ρ ρs).1.lookup k).getD [] = sm.getList (ρs k) k := by
  rw [SafeList.GetListValues_lookup]
  cases h : sm.m.lookup k with
  | none => simp [SafeList.getList_none sm _ k h]
  | some vs => simp [SafeList.getList_some sm _ k vs h]

theorem SafeList.delList_lookup_self (sm : SafeList) (s : String) :
    (sm.delList s).m.lookup s = none := by
  simp [SafeList.delList, Finmap.lookup_erase]

theorem SafeList.delList_lookup_ne (sm : SafeList) (s k : String) (hk : k ≠ s) :
    (sm.delList s).m.lookup k = sm.m.lookup k := by
  simp [SafeList.delList, Finmap.lookup_erase_ne hk]

/-- Deleting a group that does not exist leaves the container as it was. -/
theorem SafeList.delList_of_none (sm : SafeList) (s : String) (h : sm.m.lookup s = none) :
    sm.delList s = sm := by
  rw [SafeList.ext_iff_fields]
  refine ⟨rfl, ?_⟩
  apply Finmap.ext_lookup
  intro k
  by_cases hk : k = s
  · subst hk
    rw [SafeList.delList_lookup_self, h]
  · rw [SafeList.delList_lookup_ne sm s k hk]

/-- C13: after `DeleteList(k)`, `GetList(k)` is the empty list and
`GetListValues()` has no entry for `k`; every other group keeps its members
(in the state, as `GetList` lists them and as `GetListValues()` reports them)
and the flat set is unchanged; when group `k` did not exist the state is
unchanged. -/
theorem C13_DeleteList_spec (sm : SafeList) (ρ ρk : RangeOrder) (ρs : String → RangeOrder)
    (k : String) :
    ((sm.DeleteList k).GetList ρ k).1 = [] ∧
    ((sm.DeleteList k).GetListValues ρk ρs).1.lookup k = none ∧
    k ∉ ((sm.DeleteList k).GetListValues ρk ρs).1.keys ∧
    (∀ k', k' ≠ k → (sm.DeleteList k).m.lookup k' = sm.m.lookup k') ∧
    (∀ k', k' ≠ k → ((sm.DeleteList k).GetList ρ k').1 = (sm.GetList ρ k').1) ∧
    (∀ k', k' ≠ k → ((sm.DeleteList k).GetListValues ρk ρs).1.lookup k'
      = (sm.GetListValues ρk ρs).1.lookup k') ∧
    (sm.DeleteList k).s = sm.s ∧
    (sm.m.lookup k = none → sm.DeleteList k = sm) := by
  have hl : (sm.DeleteList k).m.lookup k = none := SafeList.delList_lookup_self sm k
  have hv : ((sm.DeleteList k).GetListValues ρk ρs).1.lookup k = none := by
    rw [SafeList.GetListValues_lookup, hl]
    rfl
  refine ⟨?_, hv, ?_, ?_, ?_, ?_, rfl, ?_⟩
  · simp [SafeList.GetList, SafeList.getList_none _ ρ k hl]
  · rw [Finmap.mem_keys]
    exact Finmap.lookup_eq_none.mp hv
  · intro k' hk'
    exact SafeList.delList_lookup_ne sm k k' hk'
  · intro k' hk'
    simp [SafeList.GetList, SafeList.DeleteList, SafeList.getList,
      SafeList.delList_lookup_ne sm k k' hk']
  · intro k' hk'
    rw [SafeList.GetListValues_lookup, SafeList.GetListValues_lookup]
    simp [SafeList.DeleteList, SafeList.delList_lookup_ne sm k k' hk']
  · intro h
    exact SafeList.delList_of_none sm k h

/-- C14: the keys of the mapping `GetListValues()` returns are exactly the
group keys that exist; a group key `k` maps to a duplicate-free list of exactly
the members of group `k`, a rearrangement of what `GetList(k)` returns; a group
without members maps to a present, empty list; the state is unchanged. -/
theorem C14_GetListValues_spec (sm : SafeList) (ρ : RangeOrder) (ρs : String → RangeOrder)
    (ρ₁ : RangeOrder) (k : String) :
    (k ∈ (sm.GetListValues ρ ρs).1.keys ↔ ∃ vs, sm.m.lookup k = some vs) ∧
    ((sm.GetListValues ρ ρs).1.lookup k = none ↔ sm.m.lookup k = none) ∧
    (∀ vs, sm.m.lookup k = some vs →
      ∃ l, (sm.GetListValues ρ ρs).1.lookup k = some l ∧
        l.Perm (sm.GetList ρ₁ k).1 ∧ l.Nodup ∧ (∀ x, x ∈ l ↔ x ∈ vs) ∧
        (∀ x, x ∈ vs → l.count x = 1)) ∧
    (sm.m.lookup k = some ∅ → (sm.GetListValues ρ ρs).1.lookup k = some []) ∧
    (sm.GetListValues ρ ρs).2 = sm := by
  have hl := SafeList.GetListValues_lookup sm ρ ρs k
  refine ⟨?_, ?_, ?_, ?_, rfl⟩
  · rw [Finmap.mem_keys, ← Finmap.lookup_isSome, hl, Option.isSome_iff_exists]
    cases sm.m.lookup k <;> simp
  · rw [hl]
    cases sm.m.lookup k <;> simp
  · intro vs h
    refine ⟨(ρs k).order vs, by rw [hl, h]; rfl, ?_, (ρs k).nodup vs, fun x => (ρs k).mem vs x, ?_⟩
    · simp only [SafeList.GetList, SafeList.getList_some sm ρ₁ k vs h]
      exact (ρs k).perm_order ρ₁ vs
    · intro x hx
      exact List.count_eq_one_of_mem ((ρs k).nodup vs) (((ρs k).mem vs x).mpr hx)
  · intro h
    rw [hl, h]
    simp [RangeOrder.order_empty]

/-- C15: `String()` by cases.  Flat set non-empty: the list `GetValues()`
returns as `fmt` prints it, followed by a newline.  Flat set empty and at least
one group: the lines `key: members`, each ended by a newline, one per group,
appended in the order the groups are visited.  Both empty: the empty string.
The state is unchanged in every case. -/
theorem C15_String_cases (sm : SafeList) (ρv ρk : RangeOrder) (ρs : String → RangeOrder)
    (ρr : RangeOrder) :
    ((∃ x, (sm.Get x).1 = true) →
      (sm.String ρv ρk ρs ρr).1 = fmtStrings (sm.GetValues ρv).1 ++ "\n") ∧
    ((¬ ∃ x, (sm.Get x).1 = true) → (∃ k vs, sm.m.lookup k = some vs) →
      (sm.String ρv ρk ρs ρr).1 = sm.describeGroups ρs ρr ∧
      sm.describeGroups ρs ρr =
        ((ρr.order sm.m.keys).map
          (fun k => k ++ ": " ++ fmtStrings (sm.GetList (ρs k) k).1 ++ "\n")).foldl
          (fun str line => str ++ line) "") ∧
    ((¬ ∃ x, (sm.Get x).1 = true) → (¬ ∃ k vs, sm.m.lookup k = some vs) →
      (sm.String ρv ρk ρs ρr).1 = "") ∧
    (sm.String ρv ρk ρs ρr).2 = sm := by
  have hflat : (∃ x, (sm.Get x).1 = true) ↔ sm.s.card > 0 := by
    simp [SafeList.Get, SafeList.get, Finset.card_pos, Finset.Nonempty]
  have hgrp : (∃ k vs, sm.m.lookup k = some vs) ↔ sm.m.keys.card > 0 := by
    rw [gt_iff_lt, Finset.card_pos]
    constructor
    · rintro ⟨k, vs, h⟩
      exact ⟨k, by rw [Finmap.mem_keys, ← Finmap.lookup_isSome, h]; rfl⟩
    · rintro ⟨k, hk⟩
      rw [Finmap.mem_keys, ← Finmap.lookup_isSome, Option.isSome_iff_exists] at hk
      exact ⟨k, hk⟩
  refine ⟨?_, ?_, ?_, ?_⟩
  · intro h
    simp [SafeList.String, hflat.mp h, fmtSprintln]
  · intro h₁ h₂
    have h₁' : ¬ sm.s.card > 0 := fun h => h₁ (hflat.mpr h)
    refine ⟨?_, rfl⟩
    simp only [SafeList.String, h₁', if_false, hgrp.mp h₂, if_true, SafeList.describeGroups,
      SafeList.GetListValues_keys, SafeList.GetListValues_getD, List.foldl_map]
  · intro h₁ h₂
    have h₁' : ¬ sm.s.card > 0 := fun h => h₁ (hflat.mpr h)
    have h₂' : ¬ sm.m.keys.card > 0 := fun h => h₂ (hgrp.mpr h)
    simp [SafeList.String, h₁', h₂']
  · unfold SafeList.String
    split
    · rfl
    · split <;> rfl

/-- C16 as stated fails: on the container with the flat value "a" and the group
"g" holding "x", both collections are non-empty and `String()` is the rendering
of the flat values, "[a]" and a newline, not the group line "g: [x]". -/
theorem C16_String_priority_counterexample :
    (∃ x, (((SafeList.New.Set "a").SetList "g" "x").Get x).1 = true) ∧
    (∃ k vs, ((SafeList.New.Set "a").SetList "g" "x").m.lookup k = some vs) ∧
    (((SafeList.New.Set "a").SetList "g" "x").String
      sortedOrder sortedOrder (fun _ => sortedOrder) sortedOrder).1 = "[a]\n" ∧
    ((SafeList.New.Set "a").SetList "g" "x").describeGroups
      (fun _ => sortedOrder) sortedOrder = "g: [x]\n" ∧
    (((SafeList.New.Set "a").SetList "g" "x").String
      sortedOrder sortedOrder (fun _ => sortedOrder) sortedOrder).1 ≠
      ((SafeList.New.Set "a").SetList "g" "x").describeGroups
        (fun _ => sortedOrder) sortedOrder :=
  ⟨⟨"a", by decide⟩, ⟨"g", {"x"}, by decide⟩, by decide, by decide, by decide⟩

/-- C16, amended: when both the flat set and the grouped set are non-empty,
`Len()` gives priority to the grouped collection and returns the number of
groups, while `String()` gives priority to the flat collection and is the list
`GetValues()` returns as `fmt` prints it, followed by a newline. -/
theorem C16_priority_amended (sm : SafeList) (ρv ρk : RangeOrder) (ρs : String → RangeOrder)
    (ρr : RangeOrder) (hs : ∃ x, (sm.Get x).1 = true)
    (hm : ∃ k vs, sm.m.lookup k = some vs) :
    sm.Len.1 = sm.m.keys.card ∧
    (sm.String ρv ρk ρs ρr).1 = fmtStrings (sm.GetValues ρv).1 ++ "\n" := by
  obtain ⟨k, vs, hk⟩ := hm
  have hk' : k ∈ sm.m.keys := by
    rw [Finmap.mem_keys, ← Finmap.lookup_isSome, hk]
    rfl
  have hc : sm.m.keys.card ≠ 0 := Finset.card_ne_zero_of_mem hk'
  have hflat : sm.s.card > 0 := by
    obtain ⟨x, hx⟩ := hs
    have hx' : x ∈ sm.s := by simpa [SafeList.Get, SafeList.get] using hx
    exact Finset.card_pos.mpr ⟨x, hx'⟩
  exact ⟨by simp [SafeList.Len, SafeList.len, hc], by simp [SafeList.String, hflat, fmtSprintln]⟩

/-- C16, amended, at a concrete input: the container with the flat value "a"
and the group "g" holding "x". -/
theorem C16_priority_amended_witness :
    (∃ x, (((SafeList.New.Set "a").SetList "g" "x").Get x).1 = true) ∧
    (∃ k vs, ((SafeList.New.Set "a").SetList "g" "x").m.lookup k = some vs) ∧
    ((SafeList.New.Set "a").SetList "g" "x").Len.1
      = ((SafeList.New.Set "a").SetList "g" "x").m.keys.card ∧
    (((SafeList.New.Set "a").SetList "g" "x").String
      sortedOrder sortedOrder (fun _ => sortedOrder) sortedOrder).1
      = fmtStrings (((SafeList.New.Set "a").SetList "g" "x").GetValues sortedOrder).1 ++ "\n" :=
  ⟨⟨"a", by decide⟩, ⟨"g", {"x"}, by decide⟩,
    C16_priority_amended ((SafeList.New.Set "a").SetList "g" "x")
      sortedOrder sortedOrder (fun _ => sortedOrder) sortedOrder
      ⟨"a", by decide⟩ ⟨"g", {"x"}, by decide⟩⟩

/-- The result of `GetListValues` depends on the grouped map only. -/
theorem SafeList.GetListValues_congr (a b : SafeList) (ρ : RangeOrder)
    (ρs : String → RangeOrder) (h : a.m = b.m) :
    (a.GetListValues ρ ρs).1 = (b.GetListValues ρ ρs).1 := by
  unfold SafeList.GetListValues
  simp only [h]

/-- The results of `Get` and `GetValues` depend on the flat set only. -/
theorem SafeList.flat_congr (a b : SafeList) (ρ : RangeOrder) (h : a.s = b.s) :
    (∀ x, (a.Get x).1 = (b.Get x).1) ∧ (a.GetValues ρ).1 = (b.GetValues ρ).1 := by
  unfold SafeList.GetValues SafeList.Get SafeList.get
  rw [h]
  exact ⟨fun _ => rfl, rfl⟩

theorem SafeList.GetOrSet_m (sm : SafeList) (v : String) : (sm.GetOrSet v).2.m = sm.m := by
  unfold SafeList.GetOrSet
  split <;> rfl

theorem SafeList.GetOrSetList_s (sm : SafeList) (k v : String) :
    (sm.GetOrSetList k v).2.s = sm.s := by
  unfold SafeList.GetOrSetList
  split
  · exact SafeList.setList_s sm k v
  · split
    · exact SafeList.setList_s sm k v
    · rfl

theorem SafeList.GetAndSetList_s (sm : SafeList) (ρ : RangeOrder) (k v : String) :
    (sm.GetAndSetList ρ k v).2.s = sm.s := by
  rw [(SafeList.GetAndSetList_shape sm ρ k v).2.1]
  exact SafeList.GetOrSetList_s sm k v

/-- C17: the flat-set operations `Set`, `SetMultiple`, `GetOrSet` and `Delete`
leave the grouped map and what `GetListValues()` returns unchanged; the group
operations `SetList`, `GetOrSetList`, `GetAndSetList`, `DeleteListValue` and
`DeleteList` leave the flat set, `Get(x)` for every `x` and what `GetValues()`
returns unchanged.  The strings are arbitrary, so a group key may equal a flat
value. -/
theorem C17_flat_and_grouped_independent (sm : SafeList) (ρ ρk : RangeOrder)
    (ρs : String → RangeOrder) (ρ₁ : RangeOrder) (v k : String) (vs : List String) :
    ((sm.Set v).m = sm.m ∧
      ((sm.Set v).GetListValues ρk ρs).1 = (sm.GetListValues ρk ρs).1) ∧
    ((sm.SetMultiple vs).m = sm.m ∧
      ((sm.SetMultiple vs).GetListValues ρk ρs).1 = (sm.GetListValues ρk ρs).1) ∧
    ((sm.GetOrSet v).2.m = sm.m ∧
      ((sm.GetOrSet v).2.GetListValues ρk ρs).1 = (sm.GetListValues ρk ρs).1) ∧
    ((sm.Delete v).m = sm.m ∧
      ((sm.Delete v).GetListValues ρk ρs).1 = (sm.GetListValues ρk ρs).1) ∧
    ((sm.SetList k v).s = sm.s ∧ (∀ x, ((sm.SetList k v).Get x).1 = (sm.Get x).1) ∧
      ((sm.SetList k v).GetValues ρ).1 = (sm.GetValues ρ).1) ∧
    ((sm.GetOrSetList k v).2.s = sm.s ∧
      (∀ x, ((sm.GetOrSetList k v).2.Get x).1 = (sm.Get x).1) ∧
      ((sm.GetOrSetList k v).2.GetValues ρ).1 = (sm.GetValues ρ).1) ∧
    ((sm.GetAndSetList ρ₁ k v).2.s = sm.s ∧
      (∀ x, ((sm.GetAndSetList ρ₁ k v).2.Get x).1 = (sm.Get x).1) ∧
      ((sm.GetAndSetList ρ₁ k v).2.GetValues ρ).1 = (sm.GetValues ρ).1) ∧
    ((sm.DeleteListValue k v).s = sm.s ∧
      (∀ x, ((sm.DeleteListValue k v).Get x).1 = (sm.Get x).1) ∧
      ((sm.DeleteListValue k v).GetValues ρ).1 = (sm.GetValues ρ).1) ∧
    ((sm.DeleteList k).s = sm.s ∧ (∀ x, ((sm.DeleteList k).Get x).1 = (sm.Get x).1) ∧
      ((sm.DeleteList k).GetValues ρ).1 = (sm.GetValues ρ).1) ∧
    (((sm.Set k).GetList ρ k).1 = (sm.GetList ρ k).1 ∧
      ((sm.Delete k).GetList ρ k).1 = (sm.GetList ρ k).1 ∧
      ((sm.SetList k k).Get k).1 = (sm.Get k).1 ∧
      ((sm.DeleteList k).Get k).1 = (sm.Get k).1) := by
  have hm : ∀ st : SafeList, st.m = sm.m →
      st.m = sm.m ∧ (st.GetListValues ρk ρs).1 = (sm.GetListValues ρk ρs).1 :=
    fun st h => ⟨h, SafeList.GetListValues_congr st sm ρk ρs h⟩
  have hs : ∀ st : SafeList, st.s = sm.s →
      st.s = sm.s ∧ (∀ x, (st.Get x).1 = (sm.Get x).1) ∧
        (st.GetValues ρ).1 = (sm.GetValues ρ).1 :=
    fun st h => ⟨h, (SafeList.flat_congr st sm ρ h).1, (SafeList.flat_congr st sm ρ h).2⟩
  refine ⟨hm _ rfl, hm _ (SafeList.SetMultiple_fields sm vs).2, hm _ (SafeList.GetOrSet_m sm v),
    hm _ rfl, hs _ (SafeList.setList_s sm k v), hs _ (SafeList.GetOrSetList_s sm k v),
    hs _ (SafeList.GetAndSetList_s sm ρ₁ k v), hs _ (SafeList.deleteListValue_s sm k v),
    hs _ rfl, rfl, rfl, ?_, rfl⟩
  exact (hs _ (SafeList.setList_s sm k k)).2.1 k

/-- Removing a value from a group neither adds nor removes a group key. -/
theorem SafeList.deleteListValue_keys (sm : SafeList) (s v : String) :
    (sm.deleteListValue s v).m.keys = sm.m.keys := by
  ext k
  rw [Finmap.mem_keys, Finmap.mem_keys, ← Finmap.lookup_isSome, ← Finmap.lookup_isSome]
  by_cases hk : k = s
  · subst hk
    rw [SafeList.deleteListValue_lookup_self]
    cases sm.m.lookup k <;> simp
  · rw [SafeList.deleteListValue_lookup_ne sm s v k hk]

/-- The state after `DeleteListValue(s, v)` for every `v` of a list, one call
after the other: group `s`, when it exists, keeps the members that are not in
the list; the group keys are as before. -/
theorem SafeList.run_DeleteListValue (sm : SafeList) (s : String) (l : List String) :
    (sm.run (l.map (fun v => Op.DeleteListValue s v))).m.lookup s
      = (sm.m.lookup s).map (fun vs => vs.filter (fun x => x ∉ l)) ∧
    (sm.run (l.map (fun v => Op.DeleteListValue s v))).m.keys = sm.m.keys := by
  induction l generalizing sm with
  | nil =>
    refine ⟨?_, rfl⟩
    cases h : sm.m.lookup s with
    | none => simp [SafeList.run, h]
    | some vs => simp [SafeList.run, h]
  | cons a t ih =>
    have hrun : sm.run ((a :: t).map (fun v => Op.DeleteListValue s v))
        = (sm.deleteListValue s a).run (t.map (fun v => Op.DeleteListValue s v)) := rfl
    rw [hrun]
    obtain ⟨h₁, h₂⟩ := ih (sm.deleteListValue s a)
    refine ⟨?_, by rw [h₂, SafeList.deleteListValue_keys]⟩
    rw [h₁, SafeList.deleteListValue_lookup_self]
    cases sm.m.lookup s with
    | none => rfl
    | some vs =>
      simp only [Option.map_some']
      congr 1
      ext x
      simp only [Finset.mem_filter, Finset.mem_erase, List.mem_cons, not_or]
      tauto

/-- C18: when group `k` exists and `DeleteListValue(k, v)` has been called for
every member `v` of the group (the calls are those for the elements of a list
that holds every member), group `k` is still there: it is a key of
`GetListValues()` mapped to the empty list, `GetList(k)` is empty, the group
keys are those from before, and `Len()` is the number of group keys, at least
one; only `DeleteList(k)` removes the key.  On a new container `SetList(k₀, v₀)`
followed by `DeleteListValue(k₀, v₀)` leaves group `k₀` present and empty with
`Len()` equal to 1. -/
theorem C18_emptied_group_stays (sm : SafeList) (ρ ρk : RangeOrder) (ρs : String → RangeOrder)
    (k : String) (ws : Finset String) (l : List String) (k₀ v₀ : String)
    (h : sm.m.lookup k = some ws) (hl : ∀ x, x ∈ ws → x ∈ l) :
    (sm.run (l.map (fun v => Op.DeleteListValue k v))).m.lookup k = some ∅ ∧
    ((sm.run (l.map (fun v => Op.DeleteListValue k v))).GetListValues ρk ρs).1.lookup k
      = some [] ∧
    k ∈ ((sm.run (l.map (fun v => Op.DeleteListValue k v))).GetListValues ρk ρs).1.keys ∧
    ((sm.run (l.map (fun v => Op.DeleteListValue k v))).GetList ρ k).1 = [] ∧
    (sm.run (l.map (fun v => Op.DeleteListValue k v))).m.keys = sm.m.keys ∧
    (sm.run (l.map (fun v => Op.DeleteListValue k v))).Len.1
      = (sm.run (l.map (fun v => Op.DeleteListValue k v))).m.keys.card ∧
    0 < (sm.run (l.map (fun v => Op.DeleteListValue k v))).Len.1 ∧
    (((sm.run (l.map (fun v => Op.DeleteListValue k v))).DeleteList k).GetListValues
      ρk ρs).1.lookup k = none ∧
    ((SafeList.New.SetList k₀ v₀).DeleteListValue k₀ v₀).m.lookup k₀ = some ∅ ∧
    (((SafeList.New.SetList k₀ v₀).DeleteListValue k₀ v₀).GetListValues ρk ρs).1.lookup k₀
      = some [] ∧
    (((SafeList.New.SetList k₀ v₀).DeleteListValue k₀ v₀).GetList ρ k₀).1 = [] ∧
    ((SafeList.New.SetList k₀ v₀).DeleteListValue k₀ v₀).Len.1 = 1 := by
  obtain ⟨h₁, h₂⟩ := SafeList.run_DeleteListValue sm k l
  have hk : (sm.run (l.map (fun v => Op.DeleteListValue k v))).m.lookup k = some ∅ := by
    rw [h₁, h]
    simp only [Option.map_some', Option.some.injEq]
    ext x
    simp only [Finset.mem_filter, Finset.not_mem_empty, iff_false, not_and, not_not]
    exact hl x
  have hv : ((sm.run (l.map (fun v => Op.DeleteListValue k v))).GetListValues ρk ρs).1.lookup k
      = some [] := by
    rw [SafeList.GetListValues_lookup, hk]
    simp [RangeOrder.order_empty]
  have hmem : k ∈ (sm.run (l.map (fun v => Op.DeleteListValue k v))).m.keys := by
    rw [Finmap.mem_keys, ← Finmap.lookup_isSome, hk]
    rfl
  have hc : (sm.run (l.map (fun v => Op.DeleteListValue k v))).m.keys.card ≠ 0 :=
    Finset.card_ne_zero_of_mem hmem
  have hlen : (sm.run (l.map (fun v => Op.DeleteListValue k v))).Len.1
      = (sm.run (l.map (fun v => Op.DeleteListValue k v))).m.keys.card := by
    simp [SafeList.Len, SafeList.len, hc]
  have h₀ : ((SafeList.New.SetList k₀ v₀).DeleteListValue k₀ v₀).m.lookup k₀ = some ∅ := by
    simp [SafeList.DeleteListValue, SafeList.SetList, SafeList.deleteListValue_lookup_self,
      SafeList.setList_lookup_self, SafeList.New]
  have hkeys₀ : ((SafeList.New.SetList k₀ v₀).DeleteListValue k₀ v₀).m.keys = {k₀} := by
    ext x
    simp [SafeList.DeleteListValue, SafeList.SetList, SafeList.deleteListValue_keys,
      SafeList.setList_m, SafeList.New, Finmap.mem_keys, Finmap.mem_insert]
    intro hx
    exact absurd hx (Finmap.not_mem_empty)
  refine ⟨hk, hv, ?_, ?_, h₂, hlen, ?_, ?_, h₀, ?_, ?_, ?_⟩
  · rw [SafeList.GetListValues_keys]
    exact hmem
  · simp [SafeList.GetList, SafeList.getList_some _ ρ k _ hk, RangeOrder.order_empty]
  · rw [hlen]
    exact Nat.pos_of_ne_zero hc
  · rw [SafeList.GetListValues_lookup]
    simp [SafeList.DeleteList, SafeList.delList_lookup_self]
  · rw [SafeList.GetListValues_lookup, h₀]
    simp [RangeOrder.order_empty]
  · simp [SafeList.GetList, SafeList.getList_some _ ρ k₀ _ h₀, RangeOrder.order_empty]
  · simp [SafeList.Len, SafeList.len, hkeys₀]

/-- C18 at a concrete input: the group "fruit" with the members "apple" and
"banana", both removed. -/
theorem C18_emptied_group_stays_witness :
    ((SafeList.New.SetList "fruit" "apple").SetList "fruit" "banana").m.lookup "fruit"
      = some {"banana", "apple"} ∧
    (∀ x, x ∈ ({"banana", "apple"} : Finset String) → x ∈ ["banana", "apple"]) ∧
    (((SafeList.New.SetList "fruit" "apple").SetList "fruit" "banana").run
      (["banana", "apple"].map (fun v => Op.DeleteListValue "fruit" v))).m.lookup "fruit"
      = some ∅ ∧
    0 < (((SafeList.New.SetList "fruit" "apple").SetList "fruit" "banana").run
      (["banana", "apple"].map (fun v => Op.DeleteListValue "fruit" v))).Len.1 :=
  have h := C18_emptied_group_stays
    ((SafeList.New.SetList "fruit" "apple").SetList "fruit" "banana")
    sortedOrder sortedOrder (fun _ => sortedOrder) "fruit" {"banana", "apple"}
    ["banana", "apple"] "k" "v" (by rfl) (by decide)
  ⟨by rfl, by decide, h.1, h.2.2.2.2.2.2.1⟩

theorem SafeList.getList_nodup (sm : SafeList) (ρ : RangeOrder) (k : String) :
    (sm.getList ρ k).Nodup := by
  cases h : sm.m.lookup k with
  | none => simp [SafeList.getList_none sm ρ k h]
  | some vs =>
    rw [SafeList.getList_some sm ρ k vs h]
    exact ρ.nodup vs

/-- C19: after every finite sequence of calls of `Set`, `SetMultiple`,
`GetOrSet`, `Delete`, `SetList`, `GetOrSetList`, `GetAndSetList`,
`DeleteListValue` and `DeleteList`, with any arguments, on a container from
`New()`, the list `GetValues()` returns holds no string twice and, for every
key `k`, the list `GetList(k)` returns holds no string twice.  After
`SetList("fruit","apple")` twice, `GetList("fruit")` is the list with the one
element "apple". -/
theorem C19_no_duplicates (ops : List Op) (ρ : RangeOrder) (k : String) :
    ((SafeList.New.run ops).GetValues ρ).1.Nodup ∧
    (∀ x, ((SafeList.New.run ops).GetValues ρ).1.count x ≤ 1) ∧
    ((SafeList.New.run ops).GetList ρ k).1.Nodup ∧
    (∀ x, ((SafeList.New.run ops).GetList ρ k).1.count x ≤ 1) ∧
    ((SafeList.New.run [Op.SetList "fruit" "apple", Op.SetList "fruit" "apple"]).GetList
      ρ "fruit").1 = ["apple"] ∧
    ((SafeList.New.run [Op.SetList "fruit" "apple", Op.SetList "fruit" "apple"]).GetList
      ρ "fruit").1.count "apple" = 1 := by
  have hv : ((SafeList.New.run ops).GetValues ρ).1.Nodup := by
    rw [SafeList.GetValues_fst]
    exact ρ.nodup _
  have hg : ((SafeList.New.run ops).GetList ρ k).1.Nodup :=
    SafeList.getList_nodup _ ρ k
  have hl : (SafeList.New.run [Op.SetList "fruit" "apple", Op.SetList "fruit" "apple"]).m.lookup
      "fruit" = some {"apple"} := by decide
  have he : ((SafeList.New.run [Op.SetList "fruit" "apple", Op.SetList "fruit" "apple"]).GetList
      ρ "fruit").1 = ["apple"] := by
    simp only [SafeList.GetList, SafeList.getList_some _ ρ "fruit" _ hl]
    exact ρ.order_singleton "apple"
  refine ⟨hv, fun x => List.nodup_iff_count_le_one.mp hv x, hg,
    fun x => List.nodup_iff_count_le_one.mp hg x, he, ?_⟩
  rw [he]
  decide
